import Mathlib

/-!
# Verification of the ton-labs-node-storage storage core

Shallow embedding of the storage crate's data model and operations:
little-endian byte encodings, the archive `Package` file
(`src/archives/package.rs`), `BlockMeta` (`src/types/block_meta.rs`) and
its flag operations (`src/types/block_handle.rs`), the dynamic BOC store
(`src/dynamic_boc_db.rs`), the mark-and-sweep GC
(`src/shardstate_db.rs`), the block index (`src/block_index_db.rs`),
lazy `StorageCell` references (`src/types/storage_cell.rs`) and the
archive manager lookup path (`src/archives/archive_manager.rs`).

Machine integers are modelled as `Nat` with explicit bounds where
overflow matters; fallible code returns `Option` or an explicit result
type; byte strings are `List Nat` with every byte `< 256`.

The file is laid out as definitions first, then theorems.
-/

namespace Storage

/-! ## Little-endian byte encodings

`leEnc k n` is the `k`-byte little-endian encoding of `n`
(`n.to_le_bytes()` in the source); `leDec` is the symmetric reader
(`read_le_u32` / `read_le_u64` from `ByteOrderRead`), returning the
decoded value and the remaining bytes. -/

def leEnc : Nat → Nat → List Nat
  | 0, _ => []
  | k + 1, n => n % 256 :: leEnc k (n / 256)

def leDec : Nat → List Nat → Option (Nat × List Nat)
  | 0, bs => some (0, bs)
  | _ + 1, [] => none
  | k + 1, b :: bs =>
    match leDec k bs with
    | none => none
    | some (n, rest) => some (b + 256 * n, rest)

/-- Reader for one byte (`read_byte`). -/
def byteDec : List Nat → Option (Nat × List Nat)
  | [] => none
  | b :: bs => some (b, bs)

/-! ## Package entries (`src/archives/package.rs`)

`PackageEntry` itself (`src/archives/package_entry.rs`) is not present
in the sources; its on-disk layout is modelled from the spec.

Modelled from the spec: entry on-disk layout is a 2-byte LE filename
length, 4-byte LE data length, 2 bytes padding/reserved, filename bytes,
data bytes; `PKG_ENTRY_HEADER_SIZE = 8`. -/

structure PackageEntry where
  filename : List Nat
  data : List Nat
  deriving DecidableEq, Repr

def PKG_ENTRY_HEADER_SIZE : Nat := 8

def PKG_HEADER_SIZE : Nat := 4

def PKG_HEADER_MAGIC : Nat := 0xAE8FDD01

/-- Modelled from the spec: serialized form of one entry
(`PackageEntry::write_to`). -/
def PackageEntry.writeTo (e : PackageEntry) : List Nat :=
  leEnc 2 e.filename.length ++ leEnc 4 e.data.length ++ [0, 0] ++
    e.filename ++ e.data

/-- Modelled from the spec: `PackageEntry::read_from` — the symmetric
reader of `PackageEntry.writeTo`; fails when fewer bytes are available
than declared. -/
def PackageEntry.readFrom (bs : List Nat) : Option PackageEntry :=
  match leDec 2 bs with
  | none => none
  | some (fLen, bs₁) =>
    match leDec 4 bs₁ with
    | none => none
    | some (dLen, bs₂) =>
      match bs₂ with
      | _ :: _ :: bs₃ =>
        if fLen + dLen ≤ bs₃.length then
          some ⟨bs₃.take fLen, (bs₃.drop fLen).take dLen⟩
        else
          none
      | _ => none

/-! ## The package file (`src/archives/package.rs`)

A `Package` is modelled by the byte contents of its file (magic header
included).  `Package::size()` returns the stored size minus the 4-byte
header; the stored size always equals the file length (it is initialised
from the file metadata and bumped by exactly the number of bytes each
append writes). -/

structure Package where
  bytes : List Nat
  deriving DecidableEq, Repr

/-- `Package::size` — bytes past the 4-byte magic header. -/
def Package.size (p : Package) : Nat :=
  p.bytes.length - PKG_HEADER_SIZE

/-- A fresh package as produced by `Package::open` with `create = true`
on an empty file: just the magic header. -/
def Package.fresh : Package :=
  ⟨leEnc 4 PKG_HEADER_MAGIC⟩

/-- `Package::append_entry` — serializes the entry at end of file,
bumps the size by the number of bytes written, and hands
`(entry_offset, entry_offset + entry_size)` to the continuation.
Returns the new package together with that pair. -/
def Package.appendEntry (p : Package) (e : PackageEntry) :
    Package × (Nat × Nat) :=
  let entryOffset := p.size
  let written := e.writeTo
  (⟨p.bytes ++ written⟩, (entryOffset, entryOffset + written.length))

/-- Result of `Package::read_entry`, distinguishing the up-front bounds
failure (`"Unexpected end of file while reading archives entry with
offset"`) from a failure inside `PackageEntry::read_from`. -/
inductive ReadResult where
  | boundsError
  | readError
  | ok (e : PackageEntry)
  deriving DecidableEq, Repr

/-- `Package::read_entry` — fails up front when
`size() <= offset + PKG_ENTRY_HEADER_SIZE`; otherwise seeks to
`PKG_HEADER_SIZE + offset` and reads exactly one entry.  `offset` and
the size are `u64` in the source; the sums are modelled as unbounded
`Nat`, faithful on `offset + 8 < 2^64` — for larger u64 offsets the
source's sums wrap, so theorems about `readEntry` stay inside that
domain. -/
def Package.readEntry (p : Package) (offset : Nat) : ReadResult :=
  if p.size ≤ offset + PKG_ENTRY_HEADER_SIZE then
    .boundsError
  else
    match PackageEntry.readFrom (p.bytes.drop (PKG_HEADER_SIZE + offset)) with
    | none => .readError
    | some e => .ok e

/-! ## Block meta (`src/types/block_meta.rs`)

`BlockMeta` holds a `u32` flags word, `u32 gen_utime`, `u64 gen_lt`,
`u32 masterchain_ref_seq_no` and three `AtomicBool`s: `fetched`,
`handle_stored`, `archived`.  Atomics are modelled by plain fields since
all claims are about sequential executions. -/

structure BlockMeta where
  flags : Nat
  genUtime : Nat
  genLt : Nat
  mcRefSeqNo : Nat
  fetched : Bool
  handleStored : Bool
  archived : Bool
  deriving DecidableEq, Repr

/-- `BlockMeta::with_data` — note `handle_stored` is always initialised
to `false`. -/
def BlockMeta.withData (flags genUtime genLt mcRefSeqNo : Nat)
    (fetched archived : Bool) : BlockMeta :=
  ⟨flags, genUtime, genLt, mcRefSeqNo, fetched, false, archived⟩

def boolByte (b : Bool) : Nat := if b then 1 else 0

/-- `impl Serializable for BlockMeta`, `serialize`:
`[u32 flags][u32 gen_utime][u64 gen_lt][u32 mc_ref_seq_no][u8 fetched]
[u8 archived]`, all little-endian.  `handle_stored` is not written. -/
def BlockMeta.serialize (m : BlockMeta) : List Nat :=
  leEnc 4 m.flags ++ leEnc 4 m.genUtime ++ leEnc 8 m.genLt ++
    leEnc 4 m.mcRefSeqNo ++ [boolByte m.fetched] ++ [boolByte m.archived]

/-- `impl Serializable for BlockMeta`, `deserialize` — the symmetric
reader, ending in `BlockMeta::with_data`. -/
def BlockMeta.deserialize (bs : List Nat) : Option BlockMeta :=
  match leDec 4 bs with
  | none => none
  | some (flags, bs₁) =>
    match leDec 4 bs₁ with
    | none => none
    | some (genUtime, bs₂) =>
      match leDec 8 bs₂ with
      | none => none
      | some (genLt, bs₃) =>
        match leDec 4 bs₃ with
        | none => none
        | some (mcRefSeqNo, bs₄) =>
          match byteDec bs₄ with
          | none => none
          | some (fetched, bs₅) =>
            match byteDec bs₅ with
            | none => none
            | some (archived, _) =>
              some (BlockMeta.withData flags genUtime genLt mcRefSeqNo
                (fetched ≠ 0) (archived ≠ 0))

/-! ## Flag operations (`src/types/block_meta.rs`,
`src/types/block_handle.rs`)

`BlockHandle::set_flags` performs `flags.fetch_or(mask)`;
`BlockMeta::set_fetched` / `set_handle_stored` / `set_archived` perform
a `compare_and_swap(false, true)` on the respective boolean.  The named
setters (`set_data_inited`, …, `set_moved_to_archive`, and
`fetch_info`'s `FLAG_KEY_BLOCK`) are all `set_flags` with a fixed mask;
`set_gen_utime` and `set_masterchain_ref_seq_no` store into the
non-flag fields. -/

inductive MetaOp where
  | setFlags (mask : Nat)
  | setFetched
  | setHandleStored
  | setArchived
  | storeGenUtime (t : Nat)
  | storeMcRefSeqNo (n : Nat)
  deriving DecidableEq, Repr

def MetaOp.apply (op : MetaOp) (m : BlockMeta) : BlockMeta :=
  match op with
  | .setFlags mask => { m with flags := m.flags ||| mask }
  | .setFetched => { m with fetched := true }
  | .setHandleStored => { m with handleStored := true }
  | .setArchived => { m with archived := true }
  | .storeGenUtime t => { m with genUtime := t }
  | .storeMcRefSeqNo n => { m with mcRefSeqNo := n }

def MetaOp.applyAll (ops : List MetaOp) (m : BlockMeta) : BlockMeta :=
  ops.foldl (fun acc op => op.apply acc) m

/-! ## Cells and the dynamic BOC store (`src/dynamic_boc_db.rs`)

An in-memory `ton_types::Cell` is a node carrying its representation
hash (content-addressing is abstracted into the hash) and its child
cells (`cell.reference(i)`). -/

inductive TCell where
  | node (hash : Nat) (children : List TCell)

def TCell.reprHash : TCell → Nat
  | .node h _ => h

/-- The cell DB (`CellDb`): the multiset of cell ids present.  Cell
payloads are irrelevant to the membership test
(`KvcReadable::contains`) and are dropped. -/
structure CellDbS where
  keys : List Nat
  deriving DecidableEq, Repr

def CellDbS.containsId (db : CellDbS) (id : Nat) : Bool :=
  db.keys.contains id

/-- Modelled from the spec: the diff writer
(`src/dynamic_boc_diff_writer.rs` is absent from the sources) is a
pending batch of cell puts; `add_cell` records a put and `apply`
commits the batch atomically to the cell DB. -/
structure DiffWriter where
  pending : List Nat
  deriving DecidableEq, Repr

def DiffWriter.addCell (w : DiffWriter) (id : Nat) : DiffWriter :=
  ⟨w.pending ++ [id]⟩

def DiffWriter.applyTo (w : DiffWriter) (db : CellDbS) : CellDbS :=
  ⟨db.keys ++ w.pending⟩

mutual

/-- `DynamicBocDb::save_tree_of_cells_recursive` — returns 0 when the
cell id is already in the cell DB, otherwise adds the cell to the diff
writer and recurses into the children, counting `1 + Σ child counts`.
The membership test consults only the cell DB, never the pending
diff. -/
def saveTreeRec (db : CellDbS) (c : TCell) (w : DiffWriter) :
    Nat × DiffWriter :=
  match c with
  | .node h cs =>
    if db.containsId h then (0, w)
    else
      let w₁ := w.addCell h
      let (n, w₂) := saveTreeListRec db cs w₁
      (1 + n, w₂)

/-- The `for i in 0..cell.references_count()` loop of
`save_tree_of_cells_recursive`. -/
def saveTreeListRec (db : CellDbS) (cs : List TCell) (w : DiffWriter) :
    Nat × DiffWriter :=
  match cs with
  | [] => (0, w)
  | c :: rest =>
    let (n, w₁) := saveTreeRec db c w
    let (m, w₂) := saveTreeListRec db rest w₁
    (n + m, w₂)

end

/-- `DynamicBocDb::save_as_dynamic_boc` — constructs a fresh diff
writer, traverses the tree, applies the diff, and returns the written
count together with the updated cell DB. -/
def saveAsDynamicBoc (db : CellDbS) (root : TCell) : Nat × CellDbS :=
  let (count, w) := saveTreeRec db root ⟨[]⟩
  (count, w.applyTo db)

/-! ## The block index (`src/block_index_db.rs`)

`LtDesc` and `LtDbEntry` (`src/types/lt_desc.rs`,
`src/types/lt_db_entry.rs`) are absent from the sources.

Modelled from the spec: `LtDbEntry` is `(block_id, lt, unix_time)`
(the block id is represented by its `seq_no`, the only component the
index consults); `LtDesc` per shard holds
`(first_index, last_index, last_seq_no, last_lt, last_unix_time)`,
with constructor argument order as used by `BlockIndexDb::add_handle`. -/

structure LtDesc where
  firstIndex : Nat
  lastIndex : Nat
  lastSeqNo : Nat
  lastLt : Nat
  lastUnixTime : Nat
  deriving DecidableEq, Repr

structure LtDbEntry where
  blockSeqNo : Nat
  lt : Nat
  unixTime : Nat
  deriving DecidableEq, Repr

/-- The stores behind `BlockIndexDb`: `lt_desc_db` keyed by shard ident,
`lt_db` keyed by `(shard, index)`, `lt_shard_db` keyed by shard index,
and the `LtDbStatus` entry of `status_db`.  Shard idents are abstracted
to `Nat`. -/
structure BlockIndexState where
  ltDesc : Nat → Option LtDesc
  ltDb : Nat → Nat → Option LtDbEntry
  ltShard : Nat → Option Nat
  totalShards : Option Nat

/-- The empty index. -/
def BlockIndexState.empty : BlockIndexState :=
  ⟨fun _ => none, fun _ _ => none, fun _ => none, none⟩

/-- `BlockIndexDb::add_handle` — looks up the shard's descriptor
(creating `LtDesc::with_values(1, 0, 0, 0, 0)` and registering the
shard when absent), then unconditionally stores the entry at
`last_index + 1` and rewrites the descriptor with the new index and the
appended block's `seq_no`, `lt` and `unix_time`.  Index arithmetic is
32-bit (`LtDbStatusEntry` in `src/types/lt_db_status.rs` stores
`total_shards: u32`, and the descriptor indices share the 32-bit LE
layout), so both `+ 1` increments wrap at `2^32`. -/
def addHandle (st : BlockIndexState) (shard seqNo lt ut : Nat) :
    BlockIndexState :=
  let found := st.ltDesc shard
  let desc := match found with
    | some d => d
    | none => ⟨1, 0, 0, 0, 0⟩
  let addShard := found.isNone
  let shardIndex := match found with
    | some _ => 0
    | none => match st.totalShards with
      | some n => n
      | none => 0
  let index := (desc.lastIndex + 1) % 2 ^ 32
  let entry : LtDbEntry := ⟨seqNo, lt, ut⟩
  let newDesc : LtDesc := ⟨desc.firstIndex, index, seqNo, lt, ut⟩
  { ltDesc := fun s => if s = shard then some newDesc else st.ltDesc s
    ltDb := fun s i =>
      if s = shard ∧ i = index then some entry else st.ltDb s i
    ltShard := fun i =>
      if addShard ∧ i = shardIndex then some shard else st.ltShard i
    totalShards :=
      if addShard then some ((shardIndex + 1) % 2 ^ 32) else st.totalShards }

/-! ## Block-index queries (`src/block_index_db.rs`)

`BlockIndexDb::get_block` folds over shard-prefix lengths
`0..=MAX_SPLIT_DEPTH` (the `ton_block` constant, 60); at each length it
consults the shard's descriptor and binary-searches the per-shard entry
array.  Blocks are represented by their `seq_no` — the only component
of `BlockIdExt` the index logic consults. -/

def MAX_SPLIT_DEPTH : Nat := 60

/-- Outcome of one per-length binary search: either the `Equal` early
return, or the loop finished with the recorded left/right bounds. -/
inductive SearchStep where
  | found (blockSeqNo : Nat)
  | finished (leftOpt : Option Nat) (rightOpt : Option Nat)
  deriving DecidableEq, Repr

/-- The `while rb > lb` loop of `BlockIndexDb::get_block`, with the
`last_index == index` guard against the infinite loop on gaps.
`entryAt` is the `lt_db` at the current shard; its failure (key not
found) propagates as `none`.  The loop terminates in practice; `fuel`
bounds the modelled iteration count. -/
def binSearchLoop (entryAt : Nat → Option LtDbEntry)
    (cmp : LtDbEntry → Ordering) :
    Nat → Nat → Nat → Nat → Option Nat → Option Nat → Option SearchStep
  | 0, _, _, _, _, _ => none
  | fuel + 1, lb, rb, lastIndex, leftOpt, rightOpt =>
    if rb > lb then
      let index := lb + (rb - lb) / 2
      if lastIndex = index then some (.finished leftOpt rightOpt)
      else
        match entryAt index with
        | none => none
        | some entry =>
          match cmp entry with
          | .lt => binSearchLoop entryAt cmp fuel lb index index leftOpt
              (some entry.blockSeqNo)
          | .gt => binSearchLoop entryAt cmp fuel index rb index
              (some entry.blockSeqNo) rightOpt
          | .eq => some (.found entry.blockSeqNo)
    else some (.finished leftOpt rightOpt)

/-- The per-shard view of the index: descriptor and entry array per
prefix length. -/
structure IndexSide where
  descAt : Nat → Option LtDesc
  entryAt : Nat → Nat → Option LtDbEntry

/-- The code after `get_block`'s prefix-length loop:
`Ok` when `!exact` and a candidate exists, otherwise
"Block not found". -/
def getBlockFinal (exact : Bool) (blockIdOpt : Option Nat) :
    Except String Nat :=
  match blockIdOpt with
  | some b => if !exact then .ok b else .error "Block not found"
  | none => .error "Block not found"

/-- The `for len in 0..=MAX_SPLIT_DEPTH` loop of
`BlockIndexDb::get_block`, carrying `(found, block_id_opt,
max_left_seq_no)`. -/
def getBlockLoop (side : IndexSide) (compareDesc : LtDesc → Ordering)
    (compareEntry : LtDbEntry → Ordering) (exact : Bool) (fuel : Nat) :
    List Nat → Bool → Option Nat → Nat → Except String Nat
  | [], _, blockIdOpt, _ => getBlockFinal exact blockIdOpt
  | len :: rest, found, blockIdOpt, maxLeft =>
    match side.descAt len with
    | none =>
      if found then getBlockFinal exact blockIdOpt
      else getBlockLoop side compareDesc compareEntry exact fuel rest
        found blockIdOpt maxLeft
    | some desc =>
      if compareDesc desc = .gt then
        getBlockLoop side compareDesc compareEntry exact fuel rest
          true blockIdOpt maxLeft
      else
        match binSearchLoop (side.entryAt len) compareEntry fuel
            desc.firstIndex (desc.lastIndex + 1) (desc.lastIndex + 2)
            none none with
        | none => .error "lt_db entry not found"
        | some (.found b) => .ok b
        | some (.finished leftOpt rightOpt) =>
          let blockIdOpt₁ := match rightOpt with
            | some r =>
              match blockIdOpt with
              | some b => if b > r then some r else some b
              | none => some r
            | none => blockIdOpt
          let maxLeft₁ := match leftOpt with
            | some l => if maxLeft < l then l else maxLeft
            | none => maxLeft
          match blockIdOpt₁ with
          | some b =>
            if b = maxLeft₁ + 1 then
              if !exact then .ok b else .error "Block not found"
            else
              getBlockLoop side compareDesc compareEntry exact fuel rest
                true blockIdOpt₁ maxLeft₁
          | none =>
            getBlockLoop side compareDesc compareEntry exact fuel rest
              true blockIdOpt₁ maxLeft₁

/-- `BlockIndexDb::get_block`. -/
def getBlock (side : IndexSide) (compareDesc : LtDesc → Ordering)
    (compareEntry : LtDbEntry → Ordering) (exact : Bool) (fuel : Nat) :
    Except String Nat :=
  getBlockLoop side compareDesc compareEntry exact fuel
    (List.range (MAX_SPLIT_DEPTH + 1)) false none 0

/-- `BlockIndexDb::get_block_by_lt` — `exact = false`, comparing the
query `lt` against `last_lt` and the entries' `lt`. -/
def getBlockByLt (side : IndexSide) (fuel lt : Nat) : Except String Nat :=
  getBlock side (fun d => compare lt d.lastLt) (fun e => compare lt e.lt)
    false fuel

/-- `BlockIndexDb::get_block_by_ut` — `exact = false`, comparing the
query unix time against `last_unix_time` and the entries'
`unix_time`. -/
def getBlockByUt (side : IndexSide) (fuel ut : Nat) : Except String Nat :=
  getBlock side (fun d => compare ut d.lastUnixTime)
    (fun e => compare ut e.unixTime) false fuel

/-- `BlockIndexDb::get_block_by_seq_no` — `exact = true`, comparing the
query `seq_no` against `last_seq_no` and the entries' block
`seq_no`. -/
def getBlockBySeqNo (side : IndexSide) (fuel s : Nat) : Except String Nat :=
  getBlock side (fun d => compare s d.lastSeqNo)
    (fun e => compare s e.blockSeqNo) true fuel

/-- The concrete index of the C8 scenario: one shard (at prefix length
0) holding `(seq_no = 1, lt = 100, ut = 10)`, `(2, 200, 20)`,
`(3, 300, 30)` at indices 1–3, descriptor `(1, 3, 3, 300, 30)`. -/
def scenarioSide : IndexSide :=
  ⟨fun len => if len = 0 then some ⟨1, 3, 3, 300, 30⟩ else none,
   fun len i =>
    if len = 0 then
      if i = 1 then some ⟨1, 100, 10⟩
      else if i = 2 then some ⟨2, 200, 20⟩
      else if i = 3 then some ⟨3, 300, 30⟩
      else none
    else none⟩

/-! ## Stored cell records and lazy references
(`src/cell_db.rs`, `src/types/storage_cell.rs`)

A cell record on disk is the serialized cell payload followed by
`[u8 ref_count][ref_count × 32-byte child hash]`; the payload is
abstracted away and only the child hashes are kept.  The cell DB is a
map from cell id (representation hash, abstracted to `Nat`) to
record. -/

structure CellRec where
  children : List Nat
  deriving DecidableEq, Repr

def Store := Nat → Option CellRec

/-- `Reference` (re-exported by `src/types/mod.rs`; its two variants
are fixed by their uses in `storage_cell.rs`): a child slot is either
still unloaded (`NeedToLoad(hash)`) or holds a shared loaded instance.
Shared instances (`Arc<StorageCell>`) are identified by instance
ids. -/
inductive Reference where
  | needToLoad (hash : Nat)
  | loaded (inst : Nat)
  deriving DecidableEq, Repr

/-- An in-memory `StorageCell`: its representation hash, its reference
slots and its GC generation. -/
structure InstCell where
  hash : Nat
  refs : List Reference
  gcGen : Nat
  deriving DecidableEq, Repr

/-- `StorageCell::deserialize` — every reference starts in the
`NeedToLoad` state and the GC generation starts at 0. -/
def deserializeCell (h : Nat) (r : CellRec) : InstCell :=
  ⟨h, r.children.map Reference.needToLoad, 0⟩

/-- The in-memory side of `DynamicBocDb`: the cell DB, the cache
(`cells_map`, hash → live instance; dead weak entries modelled as
absent), the heap of shared instances, the next fresh instance id, and
a counter of cell-DB reads (`CellDb::get_cell` calls). -/
structure BocState where
  store : Store
  cache : Nat → Option Nat
  insts : Nat → Option InstCell
  nextInst : Nat
  dbReads : Nat

/-- `DynamicBocDb::load_cell` — return the cached instance when the
weak reference upgrades; otherwise read the cell DB, deserialize,
install the fresh instance into the cache, and return it.  Fails when
the cell is in neither the cache nor the DB. -/
def loadCell (st : BocState) (h : Nat) : Option (Nat × BocState) :=
  match st.cache h with
  | some i => some (i, st)
  | none =>
    match st.store h with
    | none => none
    | some r =>
      let i := st.nextInst
      some (i,
        { st with
          insts := fun j =>
            if j = i then some (deserializeCell h r) else st.insts j
          cache := fun h' => if h' = h then some i else st.cache h'
          nextInst := i + 1
          dbReads := st.dbReads + 1 })

/-- `StorageCell::reference(index)` — a `Loaded` slot returns its
shared instance unchanged; a `NeedToLoad` slot loads the child through
`DynamicBocDb::load_cell` and replaces the slot with a `Loaded`
reference to the result. -/
def referenceAt (st : BocState) (inst idx : Nat) :
    Option (Nat × BocState) :=
  match st.insts inst with
  | none => none
  | some c =>
    match c.refs.get? idx with
    | none => none
    | some (.loaded j) => some (j, st)
    | some (.needToLoad h) =>
      match loadCell st h with
      | none => none
      | some (j, st₁) =>
        some (j,
          { st₁ with
            insts := fun k =>
              if k = inst then some { c with refs := c.refs.set idx (.loaded j) }
              else st₁.insts k })

/-! ## The garbage collector (`src/shardstate_db.rs`)

`GC::collect` allocates a fresh generation, classifies each shard-state
index entry as to-mark or to-sweep, stamps every cell reachable from a
to-mark root with the fresh generation, then sweeps the to-sweep
subtrees, deleting exactly the cells whose generation is stale.

`gc_gen` lives on the in-memory `StorageCell` instances; during one
`collect` the `marked` vector pins every cell stamped by the mark phase
(parents hold `Loaded` references to their children after
`reference(i)`), and `drop(marked)` runs only after the sweep
transaction commits, so the sweeper observes the stamped values.  The
per-cell generation is therefore modelled as one map `Nat → Nat` from
cell id to generation.  `load_cell`'s cache-or-DB read is represented
by the cell-DB lookup (`none` = load failure, propagated). -/

/-- The `for i in 0..references_count` child loop of
`GC::mark_subtree_recursive`: load each child (`reference(i)`, failing
when the store misses) and hand it to the recursive marker, threading
the generation map and failing fast. -/
def markFold (store : Store)
    (marker : (Nat → Nat) → Nat → CellRec → Option (Nat → Nat)) :
    Option (Nat → Nat) → List Nat → Option (Nat → Nat)
  | acc, [] => acc
  | acc, c :: cs =>
    match acc with
    | none => none
    | some gcGen =>
      match store c with
      | none => none
      | some rc => markFold store marker (marker gcGen c rc) cs

/-- `GC::mark_subtree_recursive` — early out when the cell's generation
already reached `gc_gen`, otherwise stamp it and recurse into the
children.  The parent's record is already loaded; each child is loaded
from the store before recursing. -/
def markSubtreeRec (store : Store) (g : Nat) :
    Nat → (Nat → Nat) → Nat → CellRec → Option (Nat → Nat)
  | 0, _, _, _ => none
  | fuel + 1, gcGen, root, r =>
    if g ≤ gcGen root then some gcGen
    else markFold store (markSubtreeRec store g fuel)
      (some (Function.update gcGen root g)) r.children

/-- The child loop of `GC::sweep_cells_recursive`: load each child and
collect its stale-subtree deletions in order. -/
def sweepFold (store : Store)
    (sweeper : Nat → CellRec → Option (List Nat)) :
    Option (List Nat) → List Nat → Option (List Nat)
  | acc, [] => acc
  | acc, c :: cs =>
    match acc with
    | none => none
    | some ds =>
      match store c with
      | none => none
      | some rc =>
        match sweeper c rc with
        | none => none
        | some ds' => sweepFold store sweeper (some (ds ++ ds')) cs

/-- `GC::sweep_cells_recursive` — skip the whole subtree when the
cell's generation is current (`>= gc_gen`); otherwise visit the
children first and then add the cell itself to the deletion
transaction when its generation is still stale. -/
def sweepCellsRec (store : Store) (g : Nat) :
    Nat → (Nat → Nat) → Nat → CellRec → Option (List Nat)
  | 0, _, _, _ => none
  | fuel + 1, gcGen, root, r =>
    if g ≤ gcGen root then some []
    else
      match sweepFold store (sweepCellsRec store g fuel gcGen) (some [])
          r.children with
      | none => none
      | some ds => some (if gcGen root < g then ds ++ [root] else ds)

/-- The environment of one `GC::collect` call: the cell DB, the cell
cache membership (`cells_map().contains_key`), the per-block
`BlockMeta.gen_utime` from the block-handle DB (`none` = key not
found), and the resolver TTL (`shard_state_ttl`, default 86 400 s). -/
structure GcEnv where
  store : Store
  cacheIds : Nat → Bool
  genUtime : Nat → Option Nat
  ttl : Nat

/-- `AllowStateGcResolverImpl::allow_state_gc` —
`gen_utime + shard_state_ttl < gc_utime`, with the block-meta load
failure propagated.  All three operands are `u32`
(`gen_utime: AtomicU32`, `shard_state_ttl: AtomicU32`,
`gc_utime: UnixTime32`), so the sum is the wrapping 32-bit addition,
modelled as `(gen_utime + ttl) % 2^32`. -/
def allowStateGc (env : GcEnv) (now blockId : Nat) : Option Bool :=
  match env.genUtime blockId with
  | none => none
  | some u => some (decide ((u + env.ttl) % 2 ^ 32 < now))

/-- The classification loop of `GC::mark` over the shard-state index:
an entry goes to the sweep set when its root cell is not in the cache
**and** the resolver allows collection (`&&` short-circuits: the
resolver only runs when the cache misses); otherwise its root goes to
the mark set. -/
def classifyEntries (env : GcEnv) (now : Nat) :
    List (Nat × Nat) → Option (List Nat × List (Nat × Nat))
  | [] => some ([], [])
  | (blockId, cellId) :: rest =>
    match (if env.cacheIds cellId then some false
           else allowStateGc env now blockId) with
    | none => none
    | some cond =>
      match classifyEntries env now rest with
      | none => none
      | some (toMark, toSweep) =>
        if cond then some (toMark, (blockId, cellId) :: toSweep)
        else some (cellId :: toMark, toSweep)

/-- The marking loop of `GC::mark`: load each mark root
(`load_cell`) and stamp its subtree. -/
def markRoots (store : Store) (g fuel : Nat) :
    (Nat → Nat) → List Nat → Option (Nat → Nat)
  | gcGen, [] => some gcGen
  | gcGen, rootId :: rest =>
    match store rootId with
    | none => none
    | some r =>
      match markSubtreeRec store g fuel gcGen rootId r with
      | none => none
      | some gcGen₁ => markRoots store g fuel gcGen₁ rest

/-- `GC::sweep` — load each sweep root, collect its stale subtree into
the deletion transaction, and commit.  (The per-entry
`shardstate_db.delete(block_id)` touches the shard-state index, not
cell records, and is not represented.)  Returns the ids of the deleted
cell records. -/
def sweepRoots (store : Store) (g fuel : Nat) (gcGen : Nat → Nat) :
    List (Nat × Nat) → Option (List Nat)
  | [] => some []
  | (_, cellId) :: rest =>
    match store cellId with
    | none => none
    | some r =>
      match sweepCellsRec store g fuel gcGen cellId r with
      | none => none
      | some ds =>
        match sweepRoots store g fuel gcGen rest with
        | none => none
        | some ds' => some (ds ++ ds')

/-- `GC::collect` — classify, then (only when the sweep set is
non-empty) mark and sweep.  `g` is the freshly allocated GC generation
and `gcGen` the generations of the in-memory cells; returns the list
of deleted cell records (`none` = the collection failed before the
transaction committed, deleting nothing). -/
def gcCollect (env : GcEnv) (g now fuel : Nat) (gcGen : Nat → Nat)
    (entries : List (Nat × Nat)) : Option (List Nat) :=
  match classifyEntries env now entries with
  | none => none
  | some (toMark, toSweep) =>
    if toSweep.isEmpty then some []
    else
      match markRoots env.store g fuel gcGen toMark with
      | none => none
      | some gcGen₁ => sweepRoots env.store g fuel gcGen₁ toSweep

/-- A concrete GC scenario: the cell DB holds 0 → 1 (the state of
block 10, still within TTL) and 2 (the state of block 11, expired);
nothing is cached; the resolver TTL is the default 86 400 s. -/
def gcDemoEnv : GcEnv :=
  ⟨fun n =>
    if n = 0 then some ⟨[1]⟩
    else if n = 1 then some ⟨[]⟩
    else if n = 2 then some ⟨[]⟩
    else none,
   fun _ => false,
   fun b => if b = 10 then some 1000000 else if b = 11 then some 0 else none,
   86400⟩

/-- A topological rank for `gcDemoEnv`'s cell graph. -/
def gcDemoRank : Nat → Nat := fun x => if x = 0 then 1 else 0

/-- A GC scenario exercising the resolver's u32 overflow: block 11's
state root is cell 2, its `gen_utime` is `u32::MAX` (storable through
`set_gen_utime`), and the TTL is the default 86 400 s. -/
def gcWrapEnv : GcEnv :=
  ⟨fun n => if n = 2 then some ⟨[]⟩ else none,
   fun _ => false,
   fun b => if b = 11 then some (2 ^ 32 - 1) else none,
   86400⟩

/-- Reachability through stored cell records: `Reaches store a c` holds
when `c` is `a` or a cell reachable from `a` through child
references. -/
inductive Reaches (store : Store) : Nat → Nat → Prop
  | refl (c : Nat) : Reaches store c c
  | step (a b c : Nat) (r : CellRec) : store a = some r →
      b ∈ r.children → Reaches store b c → Reaches store a c

/-- Content addressing makes the stored cell graph acyclic: a cell can
only reference cells whose hashes were decided before it.  `RankOk`
witnesses this by a rank function strictly decreasing along child
edges. -/
def RankOk (store : Store) (rank : Nat → Nat) : Prop :=
  ∀ a r, store a = some r → ∀ b ∈ r.children, rank b < rank a

/-- Mark-phase invariant: outside the current recursion stack `gray`,
every stamped cell has all its direct children stamped. -/
def MarkedInv (store : Store) (g : Nat) (gcGen : Nat → Nat)
    (gray : List Nat) : Prop :=
  ∀ a r, store a = some r → a ∉ gray → g ≤ gcGen a →
    ∀ b ∈ r.children, g ≤ gcGen b

/-! ## Archive manager `get_file`
(`src/archives/archive_manager.rs`)

`FileMaps`, `FileDescription` and `ArchiveSlice`
(`src/archives/file_maps.rs`, `src/archives/archive_slice.rs`) are
absent from the sources.

Modelled from the spec: `FileDescription` is one package id's live
handle with a `deleted` tombstone, owned by the file map; reading the
queried entry from its archive slice either yields bytes or fails. -/

structure FileDescription where
  deleted : Bool
  sliceFile : Option (List Nat)

inductive GetFileError where
  | packageNotFound
  | sliceError
  | fileNotFound
  deriving DecidableEq, Repr

/-- The environment of one `ArchiveManager::get_file` call for a fixed
block and entry id: the result of `get_package_id(mc_seq_no)`
(`none` = "Package not found"), the file map for the package kind, and
the loose file in the unapplied directory. -/
structure ArchiveEnv where
  packageIdForMcSeqNo : Option Nat
  fileMap : Nat → Option FileDescription
  looseFile : Option (List Nat)

/-- `ArchiveManager::get_file_desc` with `force = false` — a mapped
descriptor marked `deleted` yields `None`, an absent one yields
`None`. -/
def getFileDesc (env : ArchiveEnv) (pid : Nat) : Option FileDescription :=
  match env.fileMap pid with
  | some fd => if fd.deleted then none else some fd
  | none => none

/-- `ArchiveManager::read_temp_file` — not-found when the loose
unapplied file is missing. -/
def readTempFile (env : ArchiveEnv) : Except GetFileError (List Nat) :=
  match env.looseFile with
  | some d => .ok d
  | none => .error .fileNotFound

/-- `ArchiveManager::get_file` — when `moved_to_archive` is set,
resolve the package id (propagating its failure), and only when a live
file description exists read from its slice; otherwise fall through to
the loose unapplied file. -/
def getFile (env : ArchiveEnv) (movedToArchive : Bool) :
    Except GetFileError (List Nat) :=
  if movedToArchive then
    match env.packageIdForMcSeqNo with
    | none => .error .packageNotFound
    | some pid =>
      match getFileDesc env pid with
      | some fd =>
        match fd.sliceFile with
        | some d => .ok d
        | none => .error .sliceError
      | none => readTempFile env
  else
    readTempFile env

end Storage

namespace Storage

/-! # Theorems -/

/-! ## Byte-encoding lemmas -/

theorem leEnc_length (k n : Nat) : (leEnc k n).length = k := by
  induction k generalizing n with
  | zero => rfl
  | succ k ih => simp [leEnc, ih]

theorem leDec_append (k n : Nat) (h : n < 256 ^ k) (rest : List Nat) :
    leDec k (leEnc k n ++ rest) = some (n, rest) := by
  induction k generalizing n with
  | zero =>
    interval_cases n
    rfl
  | succ k ih =>
    have hdiv : n / 256 < 256 ^ k := by
      have hp : (256 : Nat) ^ (k + 1) = 256 ^ k * 256 := by ring
      rw [hp] at h
      exact Nat.div_lt_of_lt_mul (by omega)
    simp only [leEnc, List.cons_append, leDec, List.append_eq]
    rw [ih (n / 256) hdiv]
    simp [Nat.mod_add_div]

theorem PackageEntry.writeTo_length (e : PackageEntry) :
    e.writeTo.length =
      PKG_ENTRY_HEADER_SIZE + e.filename.length + e.data.length := by
  simp [writeTo, leEnc_length, PKG_ENTRY_HEADER_SIZE]
  omega

theorem PackageEntry.readFrom_writeTo (e : PackageEntry) (rest : List Nat)
    (hf : e.filename.length < 2 ^ 16) (hd : e.data.length < 2 ^ 32) :
    PackageEntry.readFrom (e.writeTo ++ rest) = some e := by
  obtain ⟨f, d⟩ := e
  simp only at hf hd
  have hf' : f.length < 256 ^ 2 := by
    have : (2:Nat) ^ 16 = 256 ^ 2 := by norm_num
    omega
  have hd' : d.length < 256 ^ 4 := by
    have : (2:Nat) ^ 32 = 256 ^ 4 := by norm_num
    omega
  simp only [writeTo, List.append_assoc, List.cons_append, List.nil_append,
    readFrom, leDec_append 2 f.length hf', leDec_append 4 d.length hd']
  have htake : (f ++ (d ++ rest)).take f.length = f := by
    simp
  have hdrop : (f ++ (d ++ rest)).drop f.length = d ++ rest := by
    simp
  simp [htake, hdrop]

/-! ## C4 — package append / read round-trip -/

/-- C4 (amended): for every package and every entry whose filename is at
most 65535 bytes, whose data is at most `2^32 - 1` bytes, and whose
filename and data are not both empty, `append_entry` hands to its
continuation an offset `o` such that `read_entry(o)` returns the same
entry, and `size()` grows by exactly
`8 + |filename| + |data|`.  (For the entry with empty filename and
empty data the size still grows by 8, but `read_entry(o)` fails the
bounds check — see the counterexample.) -/
theorem package_append_then_read (p : Package) (e : PackageEntry)
    (hwf : PKG_HEADER_SIZE ≤ p.bytes.length)
    (hf : e.filename.length ≤ 65535) (hd : e.data.length ≤ 2 ^ 32 - 1)
    (hne : 1 ≤ e.filename.length + e.data.length) :
    ((p.appendEntry e).1).readEntry (p.appendEntry e).2.1 = .ok e ∧
      ((p.appendEntry e).1).size =
        p.size + (PKG_ENTRY_HEADER_SIZE + e.filename.length + e.data.length) := by
  have hlen := PackageEntry.writeTo_length e
  have hdropw : (p.bytes ++ e.writeTo).drop (PKG_HEADER_SIZE + p.size)
      = e.writeTo := by
    have hx : PKG_HEADER_SIZE + p.size = p.bytes.length := by
      simp only [Package.size, PKG_HEADER_SIZE] at *
      omega
    rw [hx]
    exact List.drop_left p.bytes e.writeTo
  have hsize : ((p.appendEntry e).1).size =
      p.size + (PKG_ENTRY_HEADER_SIZE + e.filename.length + e.data.length) := by
    simp only [Package.appendEntry, Package.size, List.length_append,
      PKG_HEADER_SIZE] at *
    omega
  refine ⟨?_, hsize⟩
  have hoff : (p.appendEntry e).2.1 = p.size := rfl
  rw [Package.readEntry, hoff, if_neg (by
    rw [hsize]
    simp only [PKG_ENTRY_HEADER_SIZE] at *
    omega)]
  have hbytes : ((p.appendEntry e).1).bytes = p.bytes ++ e.writeTo := rfl
  rw [hbytes, hdropw]
  have hroundtrip := PackageEntry.readFrom_writeTo e []
    (by omega) (by omega)
  rw [List.append_nil] at hroundtrip
  rw [hroundtrip]

/-- C4, counterexample to the claim as stated: appending the entry with
empty filename and empty data to a fresh package yields an offset at
which `read_entry` fails (the strict bounds check
`size() <= offset + 8` rejects it), so `read_entry(o)` does not return
the entry. -/
theorem package_append_empty_entry_read_fails :
    ((Package.fresh.appendEntry ⟨[], []⟩).1).readEntry
        (Package.fresh.appendEntry ⟨[], []⟩).2.1 = .boundsError := by
  decide

/-- C4, witness: the round-trip theorem applied to the two-byte entry
`("a", [7])` appended to a fresh package. -/
theorem package_append_then_read_witness :
    ((Package.fresh.appendEntry ⟨[97], [7]⟩).1).readEntry
        (Package.fresh.appendEntry ⟨[97], [7]⟩).2.1 = .ok ⟨[97], [7]⟩ ∧
      ((Package.fresh.appendEntry ⟨[97], [7]⟩).1).size =
        Package.fresh.size + (PKG_ENTRY_HEADER_SIZE + 1 + 1) :=
  package_append_then_read Package.fresh ⟨[97], [7]⟩
    (by decide) (by decide) (by norm_num) (by decide)

/-! ## C5 — read_entry bounds check -/

/-- C5 (amended): for every offset with `offset + 8 < 2^64` (where the
source's u64 sum does not wrap), `read_entry(offset)` fails with the
out-of-range error exactly when `offset + 8` is **at least** the
package's `size()` (the check in the source is
`size() <= offset + 8`); the read is attempted exactly when
`offset + 8 < size()`.  (For u64 offsets at or above `2^64 - 8` the
source's sum wraps and the check compares `size()` against the wrapped
value instead.) -/
theorem package_readEntry_bounds (p : Package) (offset : Nat)
    (hofs : offset + PKG_ENTRY_HEADER_SIZE < 2 ^ 64) :
    (p.readEntry offset = .boundsError ↔
      p.size ≤ offset + PKG_ENTRY_HEADER_SIZE) := by
  unfold Package.readEntry
  by_cases h : p.size ≤ offset + PKG_ENTRY_HEADER_SIZE
  · simp [h]
  · simp only [if_neg h]
    constructor
    · intro hcontr
      cases hmatch : PackageEntry.readFrom
          (p.bytes.drop (PKG_HEADER_SIZE + offset)) <;>
        simp [hmatch] at hcontr
    · intro hcontr
      exact absurd hcontr h

/-- C5, counterexample to the claim as stated: a package whose body is a
single 8-byte entry (empty filename, empty data).  At offset 0 we have
`offset + 8 = size()`, which by the claim "does not exceed `size()`"
and should pass the bounds check, but `read_entry` fails with the
out-of-range error. -/
theorem package_readEntry_bounds_counterexample :
    (Package.mk (leEnc 4 PKG_HEADER_MAGIC ++ List.replicate 8 0)).readEntry 0
        = .boundsError ∧
      ¬ (0 + PKG_ENTRY_HEADER_SIZE >
          (Package.mk (leEnc 4 PKG_HEADER_MAGIC ++ List.replicate 8 0)).size) := by
  constructor
  · decide
  · decide

/-- C5, witness: the bounds-check equivalence applied to the fresh
(empty-body) package at offset 3, inside the non-wrapping domain. -/
theorem package_readEntry_bounds_witness :
    Package.fresh.readEntry 3 = .boundsError ↔
      Package.fresh.size ≤ 3 + PKG_ENTRY_HEADER_SIZE :=
  package_readEntry_bounds Package.fresh 3 (by norm_num [PKG_ENTRY_HEADER_SIZE])

/-! ## C6 — block-meta serialization round-trip -/

/-- C6, counterexample to the claim as stated: a `BlockMeta` whose
transient `handle_stored` boolean is `true` does not survive the
round-trip, because `serialize` never writes that field and
`deserialize` ends in `with_data`, which initialises it to `false`. -/
theorem blockMeta_roundtrip_counterexample :
    BlockMeta.deserialize
        (BlockMeta.serialize ⟨0, 0, 0, 0, false, true, false⟩) ≠
      some ⟨0, 0, 0, 0, false, true, false⟩ := by
  decide

/-- C6 (amended): for every `BlockMeta` whose numeric fields are in
range, `deserialize(serialize(M))` returns `with_data` applied to `M`'s
six serialized fields — i.e. a record equal to `M` except that the
unserialized transient `handle_stored` is reset to `false`.  For every
`M` with `handle_stored = false` this is exactly `M`. -/
theorem blockMeta_roundtrip (m : BlockMeta)
    (h₁ : m.flags < 2 ^ 32) (h₂ : m.genUtime < 2 ^ 32)
    (h₃ : m.genLt < 2 ^ 64) (h₄ : m.mcRefSeqNo < 2 ^ 32) :
    BlockMeta.deserialize m.serialize =
      some (BlockMeta.withData m.flags m.genUtime m.genLt m.mcRefSeqNo
        m.fetched m.archived) := by
  have e4 : (2:Nat) ^ 32 = 256 ^ 4 := by norm_num
  have e8 : (2:Nat) ^ 64 = 256 ^ 8 := by norm_num
  rw [e4] at h₁ h₂ h₄
  rw [e8] at h₃
  simp only [BlockMeta.serialize, List.append_assoc, List.cons_append,
    List.nil_append, BlockMeta.deserialize,
    leDec_append 4 m.flags h₁, leDec_append 4 m.genUtime h₂,
    leDec_append 8 m.genLt h₃, leDec_append 4 m.mcRefSeqNo h₄, byteDec]
  cases hf : m.fetched <;> cases ha : m.archived <;>
    simp [boolByte, BlockMeta.withData]

/-- C6, witness: the round-trip theorem applied to a concrete meta
record. -/
theorem blockMeta_roundtrip_witness :
    BlockMeta.deserialize
        (BlockMeta.serialize (BlockMeta.withData 5 77 123456 9 true false)) =
      some (BlockMeta.withData 5 77 123456 9 true false) :=
  blockMeta_roundtrip (BlockMeta.withData 5 77 123456 9 true false)
    (by norm_num [BlockMeta.withData]) (by norm_num [BlockMeta.withData])
    (by norm_num [BlockMeta.withData]) (by norm_num [BlockMeta.withData])

/-! ## C7 — flag monotonicity -/

/-- C7: block-meta flag bits are monotonic.  For every sequence of
flag-modifying operations (`set_flags` masks, the boolean
`compare_and_swap(false, true)` setters, and the plain stores into the
non-flag fields), no set bit of the `u32` flags word is ever cleared,
and none of the `fetched` / `handle_stored` / `archived` booleans goes
from `true` back to `false`. -/
theorem blockMeta_flags_monotonic (ops : List MetaOp) (m : BlockMeta) :
    (∀ i, m.flags.testBit i = true →
        ((MetaOp.applyAll ops m).flags).testBit i = true) ∧
      (m.fetched = true → (MetaOp.applyAll ops m).fetched = true) ∧
      (m.handleStored = true → (MetaOp.applyAll ops m).handleStored = true) ∧
      (m.archived = true → (MetaOp.applyAll ops m).archived = true) := by
  induction ops generalizing m with
  | nil => simp [MetaOp.applyAll]
  | cons op rest ih =>
    have hstep : ∀ i, m.flags.testBit i = true →
        ((op.apply m).flags).testBit i = true := by
      intro i hi
      cases op <;> simp [MetaOp.apply, Nat.testBit_lor, hi]
    have hfetched : m.fetched = true → (op.apply m).fetched = true := by
      intro hf
      cases op <;> simp [MetaOp.apply, hf]
    have hhs : m.handleStored = true → (op.apply m).handleStored = true := by
      intro hf
      cases op <;> simp [MetaOp.apply, hf]
    have harch : m.archived = true → (op.apply m).archived = true := by
      intro hf
      cases op <;> simp [MetaOp.apply, hf]
    have hall : MetaOp.applyAll (op :: rest) m
        = MetaOp.applyAll rest (op.apply m) := rfl
    rw [hall]
    obtain ⟨ih₁, ih₂, ih₃, ih₄⟩ := ih (op.apply m)
    exact ⟨fun i hi => ih₁ i (hstep i hi),
      fun h => ih₂ (hfetched h),
      fun h => ih₃ (hhs h),
      fun h => ih₄ (harch h)⟩

/-- C7, witness: after `set_flags (1 <<< 13)` then `set_fetched` on a
meta whose applied bit (1 <<< 10) is set, that bit is still set. -/
theorem blockMeta_flags_monotonic_witness :
    ((MetaOp.applyAll [.setFlags (1 <<< 13), .setFetched]
        (BlockMeta.withData (1 <<< 10) 0 0 0 false false)).flags).testBit 10
      = true :=
  (blockMeta_flags_monotonic [.setFlags (1 <<< 13), .setFetched]
      (BlockMeta.withData (1 <<< 10) 0 0 0 false false)).1 10 (by decide)

/-! ## C2 — diamond-DAG save counts -/

/-- C2, counterexample to the claim as stated: on the diamond
`R → {C1, C2} → L` over an empty cell DB, `save_as_dynamic_boc(R)` does
not return 4.  The shared leaf is counted once per referencing parent,
because `save_tree_of_cells_recursive` tests membership against the
cell DB only — the leaf is not yet applied when the second parent
visits it. -/
theorem save_diamond_counterexample :
    ¬ ((saveAsDynamicBoc ⟨[]⟩
        (.node 0 [.node 1 [.node 3 []], .node 2 [.node 3 []]])).1 = 4) := by
  decide

/-- C2 (amended): for a diamond DAG (root `R` with two children, each
referencing the same leaf `L`) none of whose cells are present in the
cell DB, `save_as_dynamic_boc(R)` returns 5 — the four distinct cells
plus one extra count for the second visit of the shared leaf — and a
second `save_as_dynamic_boc(R)` immediately afterwards returns 0. -/
theorem save_diamond (db : CellDbS) (hR hC1 hC2 hL : Nat)
    (habsR : db.containsId hR = false) (habs1 : db.containsId hC1 = false)
    (habs2 : db.containsId hC2 = false) (habsL : db.containsId hL = false) :
    (saveAsDynamicBoc db
        (.node hR [.node hC1 [.node hL []], .node hC2 [.node hL []]])).1
        = 5 ∧
      (saveAsDynamicBoc
          (saveAsDynamicBoc db
            (.node hR [.node hC1 [.node hL []], .node hC2 [.node hL []]])).2
          (.node hR [.node hC1 [.node hL []], .node hC2 [.node hL []]])).1
        = 0 := by
  have hR' : hR ∉ db.keys := by simpa [CellDbS.containsId] using habsR
  have h1' : hC1 ∉ db.keys := by simpa [CellDbS.containsId] using habs1
  have h2' : hC2 ∉ db.keys := by simpa [CellDbS.containsId] using habs2
  have hL' : hL ∉ db.keys := by simpa [CellDbS.containsId] using habsL
  constructor <;>
    simp [saveAsDynamicBoc, saveTreeRec, saveTreeListRec, DiffWriter.addCell,
      DiffWriter.applyTo, CellDbS.containsId, hR', h1', h2', hL']

/-- C2, witness: the diamond theorem at hashes 0, 1, 2, 3 over the
empty cell DB. -/
theorem save_diamond_witness :
    (saveAsDynamicBoc ⟨[]⟩
        (.node 0 [.node 1 [.node 3 []], .node 2 [.node 3 []]])).1 = 5 ∧
      (saveAsDynamicBoc
          (saveAsDynamicBoc ⟨[]⟩
            (.node 0 [.node 1 [.node 3 []], .node 2 [.node 3 []]])).2
          (.node 0 [.node 1 [.node 3 []], .node 2 [.node 3 []]])).1 = 0 :=
  save_diamond ⟨[]⟩ 0 1 2 3 (by decide) (by decide) (by decide) (by decide)

/-! ## C3 — block-index appends -/

/-- C3, counterexample to the claim as stated: starting from the empty
index, appending `(seq_no = 5)` twice in shard 0 is not a no-op on the
second (equal-`seq_no`) append — `last_index` becomes 2 — and a third
append with the lower `seq_no = 3` does not fail: it is stored and
bumps `last_index` to 3, rewriting `last_seq_no` to 3.  `add_handle`
performs no `seq_no` comparison at all. -/
theorem addHandle_no_seqno_check_counterexample :
    ((addHandle (addHandle BlockIndexState.empty 0 5 10 20) 0 5 10 20).ltDesc 0
        = some ⟨1, 2, 5, 10, 20⟩) ∧
      ((addHandle (addHandle (addHandle BlockIndexState.empty 0 5 10 20)
            0 5 10 20) 0 3 7 9).ltDesc 0
        = some ⟨1, 3, 3, 7, 9⟩) := by
  constructor <;> rfl

/-- C3 (amended): `add_handle` never fails and never no-ops: every
append — regardless of how the new `seq_no` compares to the shard's
`last_seq_no` — stores the entry at index `(last_index + 1) mod 2^32`
(the u32 increment — an increase by exactly 1 for every `last_index`
below `2^32 - 1`) and rewrites the shard's descriptor with that index
and with `last_seq_no` set to the appended block's `seq_no`. -/
theorem addHandle_appends_unconditionally (st : BlockIndexState)
    (shard seqNo lt ut : Nat) :
    (addHandle st shard seqNo lt ut).ltDesc shard =
        some ⟨(match st.ltDesc shard with
                | some d => d.firstIndex
                | none => 1),
              ((match st.ltDesc shard with
                | some d => d.lastIndex
                | none => 0) + 1) % 2 ^ 32,
              seqNo, lt, ut⟩ ∧
      (addHandle st shard seqNo lt ut).ltDb shard
          (((match st.ltDesc shard with
            | some d => d.lastIndex
            | none => 0) + 1) % 2 ^ 32) =
        some ⟨seqNo, lt, ut⟩ := by
  cases h : st.ltDesc shard <;> simp [addHandle, h]

/-! ## C9 — lazy storage-cell references -/

/-- C9: a `StorageCell` freshly deserialized from the cell DB has every
child reference in the unloaded (`NeedToLoad`) state; when slot `idx`
of instance `iid` is unloaded with child hash `h`, `h` unknown to the
cache and present in the cell DB, the first `reference(idx)` call reads
the store (one more DB read), returns the freshly installed shared
instance, and replaces slot `idx` with a `Loaded` reference to it; a
second `reference(idx)` call returns the same shared instance with the
state unchanged — in particular without reading the store again. -/
theorem storageCell_lazy_reference (st : BocState) (iid idx h : Nat)
    (c : InstCell) (r : CellRec)
    (hc : st.insts iid = some c)
    (hslot : c.refs.get? idx = some (.needToLoad h))
    (hcache : st.cache h = none)
    (hstore : st.store h = some r) :
    (∀ h₀ r₀, (deserializeCell h₀ r₀).refs
        = r₀.children.map Reference.needToLoad) ∧
      ∃ st₁, referenceAt st iid idx = some (st.nextInst, st₁) ∧
        st₁.dbReads = st.dbReads + 1 ∧
        (∃ c₁, st₁.insts iid = some c₁ ∧
          c₁.refs.get? idx = some (.loaded st.nextInst)) ∧
        referenceAt st₁ iid idx = some (st.nextInst, st₁) := by
  refine ⟨fun h₀ r₀ => rfl, ?_⟩
  have hidx : idx < c.refs.length := by
    by_contra hcon
    rw [List.get?_eq_none.mpr (by omega)] at hslot
    exact Option.noConfusion hslot
  have hload : loadCell st h = some (st.nextInst,
      { st with
        insts := fun j =>
          if j = st.nextInst then some (deserializeCell h r) else st.insts j
        cache := fun h' => if h' = h then some st.nextInst else st.cache h'
        nextInst := st.nextInst + 1
        dbReads := st.dbReads + 1 }) := by
    simp only [loadCell, hcache, hstore]
  simp only [referenceAt, hc, hslot, hload]
  refine ⟨_, rfl, rfl,
    ⟨⟨c.hash, c.refs.set idx (.loaded st.nextInst), c.gcGen⟩, by simp, ?_⟩, ?_⟩
  · exact List.get?_set_eq_of_lt _ hidx
  · have hset : (c.refs.set idx (Reference.loaded st.nextInst))[idx]?
        = some (Reference.loaded st.nextInst) := by
      simp [hidx]
    simp [referenceAt, hset]

/-- C9, witness: a two-cell heap — instance 0 is a freshly deserialized
parent whose only slot needs child hash 5, the cache is empty and the
store holds the child record. -/
theorem storageCell_lazy_reference_witness :
    ∃ st₁,
      referenceAt
          ⟨fun n => if n = 5 then some ⟨[]⟩ else none,
           fun _ => none,
           fun i => if i = 0 then some ⟨9, [.needToLoad 5], 0⟩ else none,
           1, 0⟩ 0 0 = some (1, st₁) ∧
        st₁.dbReads = 0 + 1 ∧
        (∃ c₁, st₁.insts 0 = some c₁ ∧
          c₁.refs.get? 0 = some (.loaded 1)) ∧
        referenceAt st₁ 0 0 = some (1, st₁) :=
  (storageCell_lazy_reference
      ⟨fun n => if n = 5 then some ⟨[]⟩ else none,
       fun _ => none,
       fun i => if i = 0 then some ⟨9, [.needToLoad 5], 0⟩ else none,
       1, 0⟩ 0 0 5 ⟨9, [.needToLoad 5], 0⟩ ⟨[]⟩
      rfl rfl rfl rfl).2

/-! ## C10 — archive-manager get_file fallback -/

/-- C10: in `ArchiveManager::get_file` with `moved_to_archive` set,
when a package id is found for the block's `mc_seq_no` but no live
`FileDescription` exists for it (absent from the file map, or present
but marked deleted), the call does not fail: it falls back to reading
the loose unapplied file, and returns the not-found error exactly when
that loose file is also missing. -/
theorem archive_getFile_fallback (env : ArchiveEnv) (pid : Nat)
    (hpid : env.packageIdForMcSeqNo = some pid)
    (hdead : env.fileMap pid = none ∨
      ∃ fd, env.fileMap pid = some fd ∧ fd.deleted = true) :
    getFile env true = readTempFile env ∧
      (getFile env true = .error .fileNotFound ↔ env.looseFile = none) := by
  have hdesc : getFileDesc env pid = none := by
    rcases hdead with hnone | ⟨fd, hfd, hdel⟩
    · simp only [getFileDesc, hnone]
    · simp only [getFileDesc, hfd, if_pos hdel]
  have hmain : getFile env true = readTempFile env := by
    simp only [getFile, hpid, hdesc]
    simp
  refine ⟨hmain, ?_⟩
  rw [hmain, readTempFile]
  cases hl : env.looseFile <;> simp

/-- C10, witness: the fallback theorem for a present-but-deleted file
description and a present loose file. -/
theorem archive_getFile_fallback_witness :
    getFile ⟨some 7, fun _ => some ⟨true, some [1]⟩, some [2, 3]⟩ true
        = readTempFile ⟨some 7, fun _ => some ⟨true, some [1]⟩, some [2, 3]⟩ ∧
      (getFile ⟨some 7, fun _ => some ⟨true, some [1]⟩, some [2, 3]⟩ true
          = .error .fileNotFound ↔
        (⟨some 7, fun _ => some ⟨true, some [1]⟩, some [2, 3]⟩ :
            ArchiveEnv).looseFile = none) :=
  archive_getFile_fallback
    ⟨some 7, fun _ => some ⟨true, some [1]⟩, some [2, 3]⟩ 7 rfl
    (Or.inr ⟨⟨true, some [1]⟩, rfl, rfl⟩)

/-! ## GC mark/sweep lemmas -/

/-- Mark-phase specification, by induction on fuel: a successful
`markSubtreeRec` only raises generations (and only ever to `g`),
preserves the mark invariant relative to the recursion stack, and
stamps its root. -/
theorem markSubtreeRec_spec (store : Store) (g : Nat) (rank : Nat → Nat)
    (hrank : RankOk store rank) :
    ∀ fuel root r gcGen gray out, store root = some r →
      (∀ x ∈ gray, rank root < rank x) →
      MarkedInv store g gcGen gray →
      markSubtreeRec store g fuel gcGen root r = some out →
      (∀ c, gcGen c ≤ out c) ∧ (∀ c, out c = gcGen c ∨ out c = g) ∧
        MarkedInv store g out gray ∧ g ≤ out root := by
  intro fuel
  induction fuel with
  | zero =>
    intro root r gcGen gray out _ _ _ hrun
    simp [markSubtreeRec] at hrun
  | succ fuel ih =>
    intro root r gcGen gray out hroot hgray hinv hrun
    simp only [markSubtreeRec] at hrun
    by_cases hearly : g ≤ gcGen root
    · rw [if_pos hearly] at hrun
      obtain rfl : gcGen = out := Option.some.inj hrun
      exact ⟨fun c => le_refl _, fun c => Or.inl rfl, hinv, hearly⟩
    · rw [if_neg hearly] at hrun
      have hmono₁ : ∀ c, gcGen c ≤ Function.update gcGen root g c := by
        intro c
        by_cases hc : c = root
        · subst hc
          rw [Function.update_same]
          omega
        · rw [Function.update_noteq hc]
      have hinv₁ : MarkedInv store g (Function.update gcGen root g)
          (root :: gray) := by
        intro a ra ha hnotin hga b hb
        have hane : a ≠ root := fun hcontr =>
          hnotin (hcontr ▸ List.mem_cons_self a gray)
        rw [Function.update_noteq hane] at hga
        exact le_trans
          (hinv a ra ha (fun hmem => hnotin (List.mem_cons_of_mem _ hmem))
            hga b hb)
          (hmono₁ b)
      have hgray₁ : ∀ c ∈ r.children, ∀ x ∈ root :: gray,
          rank c < rank x := by
        intro c hc x hx
        rcases List.mem_cons.mp hx with heq | hx'
        · rw [heq]
          exact hrank root r hroot c hc
        · exact lt_trans (hrank root r hroot c hc) (hgray x hx')
      have hfold : ∀ cs gcGen',
          (∀ c ∈ cs, ∀ x ∈ root :: gray, rank c < rank x) →
          MarkedInv store g gcGen' (root :: gray) →
          ∀ out', markFold store (markSubtreeRec store g fuel)
              (some gcGen') cs = some out' →
          (∀ c, gcGen' c ≤ out' c) ∧
            (∀ c, out' c = gcGen' c ∨ out' c = g) ∧
            MarkedInv store g out' (root :: gray) ∧
            ∀ c ∈ cs, g ≤ out' c := by
        intro cs
        induction cs with
        | nil =>
          intro gcGen' _ hinv' out' hrun'
          obtain rfl : gcGen' = out' := by simpa [markFold] using hrun'
          exact ⟨fun c => le_refl _, fun c => Or.inl rfl, hinv', by simp⟩
        | cons c cs' ihc =>
          intro gcGen' hg hinv' out' hrun'
          cases hsc : store c with
          | none => simp [markFold, hsc] at hrun'
          | some rc =>
            cases hms : markSubtreeRec store g fuel gcGen' c rc with
            | none =>
              have hnone : markFold store (markSubtreeRec store g fuel)
                  none cs' = some out' := by
                simpa [markFold, hsc, hms] using hrun'
              cases cs' <;> simp [markFold] at hnone
            | some gcGen₁ =>
              have hrun'' : markFold store (markSubtreeRec store g fuel)
                  (some gcGen₁) cs' = some out' := by
                simpa [markFold, hsc, hms] using hrun'
              obtain ⟨hm₁, hs₁, hinv₁', hstamp₁⟩ := ih c rc gcGen'
                (root :: gray) gcGen₁ hsc (hg c (List.mem_cons_self c cs'))
                hinv' hms
              obtain ⟨hm₂, hs₂, hinv₂, hstamp₂⟩ := ihc gcGen₁
                (fun c' hc' => hg c' (List.mem_cons_of_mem c hc')) hinv₁'
                out' hrun''
              refine ⟨fun x => le_trans (hm₁ x) (hm₂ x), ?_, hinv₂, ?_⟩
              · intro x
                rcases hs₂ x with h | h
                · rcases hs₁ x with h' | h'
                  · exact Or.inl (h.trans h')
                  · exact Or.inr (h.trans h')
                · exact Or.inr h
              · intro c' hc'
                rcases List.mem_cons.mp hc' with heq | h
                · rw [heq]
                  exact le_trans hstamp₁ (hm₂ c)
                · exact hstamp₂ c' h
      obtain ⟨hm₂, hs₂, hinv₂, hstamp₂⟩ := hfold r.children
        (Function.update gcGen root g) hgray₁ hinv₁ out hrun
      refine ⟨fun c => le_trans (hmono₁ c) (hm₂ c), ?_, ?_, ?_⟩
      · intro c
        rcases hs₂ c with h | h
        · by_cases hc : c = root
          · subst hc
            rw [h, Function.update_same]
            exact Or.inr rfl
          · rw [h, Function.update_noteq hc]
            exact Or.inl rfl
        · exact Or.inr h
      · intro a ra ha hnotin hga b hb
        by_cases hae : a = root
        · subst hae
          have hr : ra = r := by
            rw [hroot] at ha
            exact (Option.some.inj ha).symm
          subst hr
          exact hstamp₂ b hb
        · refine hinv₂ a ra ha ?_ hga b hb
          intro hmem
          rcases List.mem_cons.mp hmem with h | h
          · exact hae h
          · exact hnotin h
      · refine le_trans ?_ (hm₂ root)
        rw [Function.update_same]

/-- With an empty recursion stack, the mark invariant propagates a
stamped generation along reachability. -/
theorem reaches_stamped (store : Store) (g : Nat) (gcGen : Nat → Nat)
    (hinv : MarkedInv store g gcGen []) (a c : Nat)
    (hreach : Reaches store a c) (ha : g ≤ gcGen a) : g ≤ gcGen c := by
  induction hreach with
  | refl c => exact ha
  | step a b c r hstore hchild _ ih =>
    exact ih (hinv a r hstore (List.not_mem_nil a) ha b hchild)

/-- The marking loop of `GC::mark` preserves the invariant, only raises
generations, and stamps every mark root. -/
theorem markRoots_spec (store : Store) (g : Nat) (rank : Nat → Nat)
    (hrank : RankOk store rank) (fuel : Nat) :
    ∀ roots gcGen out, MarkedInv store g gcGen [] →
      markRoots store g fuel gcGen roots = some out →
      (∀ c, gcGen c ≤ out c) ∧ MarkedInv store g out [] ∧
        ∀ rt ∈ roots, g ≤ out rt := by
  intro roots
  induction roots with
  | nil =>
    intro gcGen out hinv hrun
    obtain rfl : gcGen = out := by simpa [markRoots] using hrun
    exact ⟨fun c => le_refl _, hinv, by simp⟩
  | cons rt rest ih =>
    intro gcGen out hinv hrun
    cases hsr : store rt with
    | none => simp [markRoots, hsr] at hrun
    | some r =>
      cases hms : markSubtreeRec store g fuel gcGen rt r with
      | none => simp [markRoots, hsr, hms] at hrun
      | some gcGen₁ =>
        have hrun' : markRoots store g fuel gcGen₁ rest = some out := by
          simpa [markRoots, hsr, hms] using hrun
        obtain ⟨hm₁, _, hinv₁, hstamp₁⟩ :=
          markSubtreeRec_spec store g rank hrank fuel rt r gcGen [] gcGen₁ hsr
            (by simp) hinv hms
        obtain ⟨hm₂, hinv₂, hstamp₂⟩ := ih gcGen₁ out hinv₁ hrun'
        refine ⟨fun c => le_trans (hm₁ c) (hm₂ c), hinv₂, ?_⟩
        intro x hx
        rcases List.mem_cons.mp hx with heq | h
        · rw [heq]
          exact le_trans hstamp₁ (hm₂ rt)
        · exact hstamp₂ x h

/-- Sweep-phase specification: every cell id collected into the
deletion transaction has a stale generation (`gc_gen < g`) — the sweep
skips every cell whose generation is at least `g`. -/
theorem sweepCellsRec_spec (store : Store) (g : Nat) :
    ∀ fuel gcGen root r ds,
      sweepCellsRec store g fuel gcGen root r = some ds →
      ∀ x ∈ ds, gcGen x < g := by
  intro fuel
  induction fuel with
  | zero =>
    intro gcGen root r ds hrun
    simp [sweepCellsRec] at hrun
  | succ fuel ih =>
    intro gcGen root r ds hrun
    simp only [sweepCellsRec] at hrun
    by_cases hearly : g ≤ gcGen root
    · rw [if_pos hearly] at hrun
      obtain rfl : ([] : List Nat) = ds := Option.some.inj hrun
      simp
    · rw [if_neg hearly] at hrun
      have hfold : ∀ cs ds₀ out, (∀ x ∈ ds₀, gcGen x < g) →
          sweepFold store (sweepCellsRec store g fuel gcGen) (some ds₀) cs
            = some out →
          ∀ x ∈ out, gcGen x < g := by
        intro cs
        induction cs with
        | nil =>
          intro ds₀ out h₀ hrun'
          obtain rfl : ds₀ = out := by simpa [sweepFold] using hrun'
          exact h₀
        | cons c cs' ihc =>
          intro ds₀ out h₀ hrun'
          cases hsc : store c with
          | none => simp [sweepFold, hsc] at hrun'
          | some rc =>
            cases hms : sweepCellsRec store g fuel gcGen c rc with
            | none => simp [sweepFold, hsc, hms] at hrun'
            | some ds₁ =>
              have hrun'' : sweepFold store (sweepCellsRec store g fuel gcGen)
                  (some (ds₀ ++ ds₁)) cs' = some out := by
                simpa [sweepFold, hsc, hms] using hrun'
              refine ihc (ds₀ ++ ds₁) out ?_ hrun''
              intro x hx
              rcases List.mem_append.mp hx with h | h
              · exact h₀ x h
              · exact ih gcGen c rc ds₁ hms x h
      cases hch : sweepFold store (sweepCellsRec store g fuel gcGen) (some [])
          r.children with
      | none => rw [hch] at hrun; cases hrun
      | some ds₀ =>
        rw [hch] at hrun
        obtain rfl := Option.some.inj hrun
        intro x hx
        by_cases hlt : gcGen root < g
        · rw [if_pos hlt] at hx
          rcases List.mem_append.mp hx with h | h
          · exact hfold r.children [] ds₀ (by simp) hch x h
          · rw [List.mem_singleton.mp h]
            exact hlt
        · rw [if_neg hlt] at hx
          exact hfold r.children [] ds₀ (by simp) hch x hx

/-- The sweeping loop of `GC::sweep` deletes only stale cells. -/
theorem sweepRoots_spec (store : Store) (g fuel : Nat) (gcGen : Nat → Nat) :
    ∀ ts ds, sweepRoots store g fuel gcGen ts = some ds →
      ∀ x ∈ ds, gcGen x < g := by
  intro ts
  induction ts with
  | nil =>
    intro ds hrun
    obtain rfl : ([] : List Nat) = ds := by
      simpa [sweepRoots] using hrun.symm
    simp
  | cons e rest ih =>
    intro ds hrun
    obtain ⟨blockId, cellId⟩ := e
    cases hsc : store cellId with
    | none => simp [sweepRoots, hsc] at hrun
    | some r =>
      cases hms : sweepCellsRec store g fuel gcGen cellId r with
      | none => simp [sweepRoots, hsc, hms] at hrun
      | some ds₁ =>
        cases hrest : sweepRoots store g fuel gcGen rest with
        | none => simp [sweepRoots, hsc, hms, hrest] at hrun
        | some ds₂ =>
          have : ds₁ ++ ds₂ = ds := by
            simpa [sweepRoots, hsc, hms, hrest] using hrun
          subst this
          intro x hx
          rcases List.mem_append.mp hx with h | h
          · exact sweepCellsRec_spec store g fuel gcGen cellId r ds₁ hms x h
          · exact ih ds₂ hrest x h

/-- A shard-state entry whose resolver bound holds
(`now ≤ (gen_utime + ttl) % 2^32`, the wrapping u32 sum) is always
classified into the mark set — whether or not its root is cached. -/
theorem classifyEntries_mem (env : GcEnv) (now : Nat) :
    ∀ entries toMark toSweep blockId cellId u,
      classifyEntries env now entries = some (toMark, toSweep) →
      (blockId, cellId) ∈ entries →
      env.genUtime blockId = some u → now ≤ (u + env.ttl) % 2 ^ 32 →
      cellId ∈ toMark := by
  intro entries
  induction entries with
  | nil =>
    intro toMark toSweep blockId cellId u _ hmem _ _
    simp at hmem
  | cons e rest ih =>
    intro toMark toSweep blockId cellId u hrun hmem hu hbound
    obtain ⟨b₀, c₀⟩ := e
    cases hcond : (if env.cacheIds c₀ then some false
        else allowStateGc env now b₀) with
    | none => simp [classifyEntries, hcond] at hrun
    | some cond =>
      cases hrest : classifyEntries env now rest with
      | none => simp [classifyEntries, hcond, hrest] at hrun
      | some pair =>
        obtain ⟨tm, ts⟩ := pair
        rcases List.mem_cons.mp hmem with heq | hmem'
        · have h1 : b₀ = blockId := (congrArg Prod.fst heq).symm
          have h2 : c₀ = cellId := (congrArg Prod.snd heq).symm
          subst h1
          subst h2
          have hcf : cond = false := by
            by_cases hc : env.cacheIds c₀
            · rw [if_pos hc] at hcond
              exact (Option.some.inj hcond).symm
            · rw [if_neg hc, allowStateGc, hu] at hcond
              have hcd := (Option.some.inj hcond).symm
              rw [hcd]
              simp
              omega
          subst hcf
          have hpair : c₀ :: tm = toMark ∧ ts = toSweep := by
            simpa [classifyEntries, hcond, hrest] using hrun
          rw [← hpair.1]
          exact List.mem_cons_self ..
        · have htm : toMark = tm ∨ toMark = c₀ :: tm := by
            cases cond with
            | true =>
              have hpair : tm = toMark ∧ (b₀, c₀) :: ts = toSweep := by
                simpa [classifyEntries, hcond, hrest] using hrun
              exact Or.inl hpair.1.symm
            | false =>
              have hpair : c₀ :: tm = toMark ∧ ts = toSweep := by
                simpa [classifyEntries, hcond, hrest] using hrun
              exact Or.inr hpair.1.symm
          have hintm : cellId ∈ tm :=
            ih tm ts blockId cellId u hrest hmem' hu hbound
          rcases htm with rfl | rfl
          · exact hintm
          · exact List.mem_cons_of_mem c₀ hintm

/-! ## C1 — GC preserves unexpired shard states -/

/-- C1 (amended): for every shard-state index entry whose block
satisfies `(gen_utime + ttl) % 2^32 ≥ now` at collection time — the
resolver computes the wrapping u32 sum; for `gen_utime` below
`2^32 - ttl` this is the plain bound `gen_utime + ttl ≥ now` —
`GC::collect` never deletes any cell record reachable from that
entry's state root.  The entry is classified into the mark set (the
resolver refuses collection), the mark phase stamps every cell
reachable from it with the current generation `g`, and the sweep
deletes only cells whose generation is below `g`.  Hypotheses: the
stored cell graph is acyclic (`RankOk`, guaranteed by content
addressing) and the freshly allocated generation `g` is above every
existing cell generation (the generation counter is monotonically
increasing). -/
theorem gc_preserves_unexpired_roots
    (env : GcEnv) (g now fuel : Nat) (gcGen₀ : Nat → Nat)
    (entries : List (Nat × Nat)) (rank : Nat → Nat)
    (deleted : List Nat) (blockId rootId u c : Nat)
    (hrank : RankOk env.store rank)
    (hfresh : ∀ x, gcGen₀ x < g)
    (hmem : (blockId, rootId) ∈ entries)
    (hmeta : env.genUtime blockId = some u)
    (hlive : now ≤ (u + env.ttl) % 2 ^ 32)
    (hcollect : gcCollect env g now fuel gcGen₀ entries = some deleted)
    (hreach : Reaches env.store rootId c) :
    c ∉ deleted := by
  cases hcls : classifyEntries env now entries with
  | none => simp [gcCollect, hcls] at hcollect
  | some pair =>
    obtain ⟨toMark, toSweep⟩ := pair
    simp only [gcCollect, hcls] at hcollect
    by_cases hswe : toSweep.isEmpty
    · rw [if_pos hswe] at hcollect
      obtain rfl : ([] : List Nat) = deleted := Option.some.inj hcollect
      simp
    · rw [if_neg hswe] at hcollect
      cases hmr : markRoots env.store g fuel gcGen₀ toMark with
      | none => rw [hmr] at hcollect; cases hcollect
      | some gcGen₁ =>
        rw [hmr] at hcollect
        have hinv₀ : MarkedInv env.store g gcGen₀ [] := by
          intro a r _ _ hga
          exact absurd hga (by have := hfresh a; omega)
        obtain ⟨_, hinv₁, hstamp⟩ :=
          markRoots_spec env.store g rank hrank fuel toMark gcGen₀ gcGen₁
            hinv₀ hmr
        have hroot : rootId ∈ toMark :=
          classifyEntries_mem env now entries toMark toSweep blockId rootId u
            hcls hmem hmeta hlive
        have hstc : g ≤ gcGen₁ c :=
          reaches_stamped env.store g gcGen₁ hinv₁ rootId c hreach
            (hstamp rootId hroot)
        intro hcdel
        have := sweepRoots_spec env.store g fuel gcGen₁ toSweep deleted
          hcollect c hcdel
        omega

/-- C1, witness: in `gcDemoEnv` with generation 1 at time 90 000,
`collect` deletes exactly the expired root cell 2, and the cell 1 —
reachable from the unexpired entry `(block 10, root 0)` — is not among
the deleted records. -/
theorem gc_preserves_unexpired_roots_witness :
    gcCollect gcDemoEnv 1 90000 10 (fun _ => 0) [(10, 0), (11, 2)]
        = some [2] ∧
      (1 : Nat) ∉ [2] := by
  have hrank : RankOk gcDemoEnv.store gcDemoRank := by
    intro a r ha b hb
    by_cases h0 : a = 0
    · subst h0
      have hr : r = ⟨[1]⟩ := by
        have := ha.symm.trans (show gcDemoEnv.store 0 = some ⟨[1]⟩ from rfl)
        exact Option.some.inj this
      subst hr
      have hb1 : b = 1 := by simpa using hb
      subst hb1
      simp [gcDemoRank]
    · by_cases h1 : a = 1
      · subst h1
        have hr : r = ⟨[]⟩ := by
          have := ha.symm.trans (show gcDemoEnv.store 1 = some ⟨[]⟩ from rfl)
          exact Option.some.inj this
        subst hr
        simp at hb
      · by_cases h2 : a = 2
        · subst h2
          have hr : r = ⟨[]⟩ := by
            have := ha.symm.trans
              (show gcDemoEnv.store 2 = some ⟨[]⟩ from rfl)
            exact Option.some.inj this
          subst hr
          simp at hb
        · exact absurd ha (by simp [gcDemoEnv, h0, h1, h2])
  refine ⟨by decide, ?_⟩
  exact gc_preserves_unexpired_roots gcDemoEnv 1 90000 10 (fun _ => 0)
    [(10, 0), (11, 2)] gcDemoRank [2] 10 0 1000000 1
    hrank (fun _ => Nat.one_pos) (by simp) rfl (by decide)
    (by decide)
    (Reaches.step 0 1 1 ⟨[1]⟩ rfl (by simp) (Reaches.refl 1))

/-- C1, counterexample to the claim as stated: block 11 has
`gen_utime = u32::MAX`, so its mathematical `gen_utime + 86400` far
exceeds `now = 90000` and the claim protects its state root (cell 2,
reachable from itself).  But the resolver's u32 sum wraps to 86 399,
which is below `now`, so `collect` classifies the entry for sweeping
and deletes cell 2. -/
theorem gc_wrap_counterexample :
    90000 ≤ (2 ^ 32 - 1) + 86400 ∧
      Reaches gcWrapEnv.store 2 2 ∧
      gcCollect gcWrapEnv 1 90000 10 (fun _ => 0) [(11, 2)] = some [2] ∧
      2 ∈ [2] :=
  ⟨by norm_num, Reaches.refl 2, by decide, by decide⟩

/-! ## C8 — block-index binary search scenario -/

/-- C8: on the index holding `(seq_no = 1, lt = 100, ut = 10)`,
`(2, 200, 20)`, `(3, 300, 30)` in one shard,
`get_block_by_lt(250)` returns the block with `seq_no = 3` (the
smallest block whose `lt ≥ 250`), `get_block_by_seq_no(2)` returns the
block with `seq_no = 2`, and `get_block_by_seq_no(99)` fails with
block-not-found. -/
theorem blockIndex_scenario :
    getBlockByLt scenarioSide 100 250 = .ok 3 ∧
      getBlockBySeqNo scenarioSide 100 2 = .ok 2 ∧
      getBlockBySeqNo scenarioSide 100 99 = .error "Block not found" := by
  refine ⟨?_, ?_, ?_⟩ <;> rfl

end Storage
